import Mathlib

/-!
Verification of the glossary term scanner and validator of
docusaurus-plugin-glossary.

The scanner (remark plugin, `src/remark/glossaryTerms.js`) and the validator
(`src/validation.ts`) are shallowly embedded below.  JavaScript strings are
modelled as `List Char` (`Str`); all definitions are structurally recursive so
that every concrete run evaluates inside the kernel (`rfl` / `decide`).
-/

/-- JavaScript strings, modelled as lists of characters. -/
abbrev Str := List Char

/-- The regex class `\w` of JavaScript: ASCII alphanumeric or underscore.
`Char.isAlphanum` tests exactly ASCII letters and digits. -/
def isWordChar (c : Char) : Bool := c.isAlphanum || c = '_'

/-- `String.prototype.toLowerCase`, character by character (the inputs of
interest are ASCII, where this coincides with JavaScript). -/
def toLowerStr (s : Str) : Str := s.map Char.toLower

/-- Does `needle` stand at the front of `hay`? (prefix test used to model
`String.prototype.indexOf` position by position). -/
def startsWithStr : Str → Str → Bool
  | [], _ => true
  | _ :: _, [] => false
  | a :: as, b :: bs => a = b && startsWithStr as bs

/-- `String.prototype.includes`: some position of `hay` starts with `needle`. -/
def containsSub : Str → Str → Bool
  | [], needle => needle.isEmpty
  | c :: rest, needle => startsWithStr needle (c :: rest) || containsSub rest needle

/-- `text.substring(a, b)` for `a ≤ b` (the only way the scanner calls it). -/
def substringL (s : Str) (a b : Nat) : Str := (s.drop a).take (b - a)

/-- A glossary term record as the scanner consumes it: `{term, definition}`. -/
structure TermObj where
  term : Str
  definition : Str

/-- A candidate match produced while scanning one text node
(`{index, length, term, termObj, originalText}` in the source). -/
structure Match where
  index : Nat
  length : Nat
  term : Str
  definition : Str
  originalText : Str

/-- The word-boundary / plural test of `replaceTermsInText` applied to a
candidate occurrence of a term of length `termLen` at position `index` of the
case-folded text: `some matchLength` when the occurrence is accepted.  The
source computes `beforeChar`/`afterChar` with a space standing in for an
absent character, tests the strict boundary first, then a trailing `s`, then
a trailing `es`. -/
def checkCandidate (textLower : Str) (termLen index : Nat) : Option Nat :=
  let beforeChar := if index > 0 then textLower.getD (index - 1) ' ' else ' '
  let afterIndex := index + termLen
  let afterChar := if afterIndex < textLower.length then textLower.getD afterIndex ' ' else ' '
  if !isWordChar beforeChar && !isWordChar afterChar then
    some termLen
  else if afterChar = 's' &&
      !isWordChar (if afterIndex + 1 < textLower.length then textLower.getD (afterIndex + 1) ' ' else ' ') then
    some (termLen + 1)
  else if afterChar = 'e' && decide (afterIndex + 1 < textLower.length) &&
      textLower.getD (afterIndex + 1) ' ' = 's' &&
      !isWordChar (if afterIndex + 2 < textLower.length then textLower.getD (afterIndex + 2) ' ' else ' ') then
    some (termLen + 2)
  else none

/-- The inner `while` loop of `replaceTermsInText` for one term: the source
jumps with `indexOf` from `searchIndex = previous index + 1`; walking the
suffix of the case-folded text position by position visits exactly the same
candidate occurrences in the same ascending order.  `suffix` is
`textLower.drop pos`. -/
def scanTerm (textLower text lowerTerm : Str) (tobj : TermObj) : Str → Nat → List Match
  | [], _ => []
  | c :: rest, pos =>
    let tailMs := scanTerm textLower text lowerTerm tobj rest (pos + 1)
    if startsWithStr lowerTerm (c :: rest) then
      match checkCandidate textLower tobj.term.length pos with
      | some matchLength =>
        { index := pos, length := matchLength, term := tobj.term,
          definition := tobj.definition,
          originalText := substringL text pos (pos + matchLength) } :: tailMs
      | none => tailMs
    else tailMs

/-- The outer `for (const [lowerTerm, termObj] of sortedTerms)` loop collecting
candidate matches of every term. -/
def collectMatchesGo (textLower text : Str) : List (Str × TermObj) → List Match
  | [] => []
  | (lowerTerm, tobj) :: rest =>
    scanTerm textLower text lowerTerm tobj textLower 0 ++ collectMatchesGo textLower text rest

/-- All candidate matches of all terms in one text node. -/
def collectMatches (sortedTerms : List (Str × TermObj)) (text : Str) : List Match :=
  collectMatchesGo (toLowerStr text) text sortedTerms

/-- Stable insertion of a match into a list sorted by ascending start offset:
the element being inserted stood before the list's elements, so on ties it
stays first.  Models the stable `matches.sort((a, b) => a.index - b.index)`. -/
def insertByIndex (m : Match) : List Match → List Match
  | [] => [m]
  | x :: xs => if m.index ≤ x.index then m :: x :: xs else x :: insertByIndex m xs

/-- Stable sort of the candidate matches by ascending start offset. -/
def sortByIndex : List Match → List Match
  | [] => []
  | m :: ms => insertByIndex m (sortByIndex ms)

/-- The overlap-resolution loop: keep a match iff its start offset is at or
after `lastMatchEnd`, the end of the last kept match (initially 0). -/
def removeOverlapsGo : List Match → Nat → List Match
  | [], _ => []
  | m :: ms, lastMatchEnd =>
    if m.index ≥ lastMatchEnd then m :: removeOverlapsGo ms (m.index + m.length)
    else removeOverlapsGo ms lastMatchEnd

/-- The end offset (start plus resolved length) of the last match of a kept
list, 0 when none has been kept yet. -/
def keptEnd (kept : List Match) : Nat :=
  match kept.getLast? with
  | none => 0
  | some k => k.index + k.length

/-- The spec's wording of overlap resolution, kept as a separate definition to
compare with the code's loop: iterate in order, keep a match if its start
offset is at or after the end offset of the last match kept so far. -/
def specResolveGo (kept : List Match) : List Match → List Match
  | [] => kept
  | m :: ms =>
    if m.index ≥ keptEnd kept then specResolveGo (kept ++ [m]) ms else specResolveGo kept ms

/-- Overlap resolution as the spec words it. -/
def specResolve (ms : List Match) : List Match := specResolveGo [] ms

/-- A node of the markdown/MDX syntax tree.  `type` discriminators are kept as
strings, as in the unist data model; `elem` covers containers and MDX JSX
elements (`name`/`attrs` empty for plain containers), `esm` is an `mdxjsEsm`
declaration node carrying its lexical value and the import sources of its
parsed `estree` body. -/
inductive Node where
  | text (value : Str)
  | esm (value : Str) (srcs : List Str)
  | elem (ty : Str) (name : Str) (attrs : List (Str × Str)) (children : List Node)

/-- The `<GlossaryTerm>` annotation element built for one kept match, with the
`term`, `definition` and `routePath` attributes and the original-cased matched
text as its single child. -/
def annotNode (routePath : Str) (m : Match) : Node :=
  Node.elem ("mdxJsxFlowElement".data) ("GlossaryTerm".data)
    [(("term".data), m.term), (("definition".data), m.definition), (("routePath".data), routePath)]
    [Node.text m.originalText]

/-- The result-building loop of `replaceTermsInText`: for each kept match emit
the plain text before it (when non-empty) and its annotation element, then the
trailing text (when non-empty). -/
def buildResult (text routePath : Str) : List Match → Nat → List Node
  | [], lastIndex =>
    if lastIndex < text.length then [Node.text (substringL text lastIndex text.length)] else []
  | m :: ms, lastIndex =>
    (if m.index > lastIndex then [Node.text (substringL text lastIndex m.index)] else [])
      ++ annotNode routePath m :: buildResult text routePath ms (m.index + m.length)

/-- `replaceTermsInText(text)`: collect candidates for every term, sort them by
start offset, drop overlaps greedily, and splice the node's text around the
kept matches. -/
def replaceTermsInText (sortedTerms : List (Str × TermObj)) (routePath text : Str) : List Node :=
  if text.isEmpty || sortedTerms.isEmpty then [Node.text text]
  else
    let ms := collectMatches sortedTerms text
    let nonOverlapping := removeOverlapsGo (sortByIndex ms) 0
    let result := buildResult text routePath nonOverlapping 0
    if result.isEmpty then [Node.text text] else result

/-- `Map.prototype.set`: update the value of an existing key in place (the
key keeps its insertion position), append a new key at the end. -/
def mapSet : List (Str × TermObj) → Str → TermObj → List (Str × TermObj)
  | [], k, v => [(k, v)]
  | p :: ps, k, v => if p.1 = k then (k, v) :: ps else p :: mapSet ps k v

/-- `Map.prototype.get` as an association-list lookup (keys are unique by
construction of `mapSet`, so first match and last match agree). -/
def lookupTermMap : List (Str × TermObj) → Str → Option TermObj
  | [], _ => none
  | p :: ps, k => if p.1 = k then some p.2 else lookupTermMap ps k

/-- The term-map construction of `remarkGlossaryTerms`: skip falsy (empty)
term strings, key each record by its case-folded term — a later record with
the same case-folded term overwrites the earlier one. -/
def buildTermMap (terms : List TermObj) : List (Str × TermObj) :=
  terms.foldl (fun m t => if t.term.isEmpty then m else mapSet m (toLowerStr t.term) t) []

/-- Stable insertion for the sort by descending key length
(`(a, b) => b[0].length - a[0].length`): on ties the earlier entry stays
first. -/
def insertByLenDesc (p : Str × TermObj) : List (Str × TermObj) → List (Str × TermObj)
  | [] => [p]
  | q :: qs => if q.1.length ≤ p.1.length then p :: q :: qs else q :: insertByLenDesc p qs

/-- Stable sort of the term-map entries by descending term length. -/
def sortTermsByLenDesc : List (Str × TermObj) → List (Str × TermObj)
  | [] => []
  | p :: ps => insertByLenDesc p (sortTermsByLenDesc ps)

/-- `sortedTerms` as `remarkGlossaryTerms` derives it from its term list. -/
def buildSortedTerms (terms : List TermObj) : List (Str × TermObj) :=
  sortTermsByLenDesc (buildTermMap terms)

/-- The parent types whose text children the transformer skips: code blocks,
inline code, links and existing MDX JSX (annotation) elements. -/
def protectedTy (ty : Str) : Bool :=
  ty = "code".data || ty = "inlineCode".data || ty = "link".data ||
  ty = "mdxJsxFlowElement".data || ty = "mdxJsxTextElement".data

/-- Is the node a plain text node? -/
def isTextNode : Node → Bool
  | Node.text _ => true
  | _ => false

/-- Is the node an `mdxJsxFlowElement` (the shape `replaceTermsInText` emits
for annotations)? -/
def isJsxFlow : Node → Bool
  | Node.elem ty _ _ _ => ty = "mdxJsxFlowElement".data
  | _ => false

/-- The splice test of the visitor: replace the text node iff the replacement
list has more than one node, or a single node that is not plain text. -/
def spliceCond : List Node → Bool
  | [] => false
  | [n] => !isTextNode n
  | _ :: _ :: _ => true

/-- The context-sensitive conversion of a replacement: inside a paragraph an
`mdxJsxFlowElement` becomes an `mdxJsxTextElement`; everything else is kept. -/
def convertForParent (parentTy : Str) (n : Node) : Node :=
  match n with
  | Node.elem ty name attrs children =>
    if ty = "mdxJsxFlowElement".data && parentTy = "paragraph".data then
      Node.elem ("mdxJsxTextElement".data) name attrs children
    else Node.elem ty name attrs children
  | n => n

/-- Processing of one unprotected text node under `unist-util-visit`: scan it,
splice when the test fires, and — because the visitor returns the index of the
last inserted node — re-visit that last node.  A last node that is an
annotation element is protected (its only child's parent is the annotation),
so re-visiting it changes nothing; a last node that is plain text is scanned
again, which this function performs recursively.  The fuel is structural
bookkeeping only: every re-visited trailing text is strictly shorter than the
text that produced it (terms reaching the scanner are non-empty, so every
match consumes at least one character), hence `value.length + 1` steps always
suffice. -/
def processText (st : List (Str × TermObj)) (route parentTy : Str) : Nat → Str → List Node × Bool
  | 0, v => ([Node.text v], false)
  | fuel + 1, v =>
    let reps := replaceTermsInText st route v
    if spliceCond reps then
      let used := reps.any isJsxFlow
      let newNodes := reps.map (convertForParent parentTy)
      match newNodes.getLast? with
      | some (Node.text v2) =>
        let pr := processText st route parentTy fuel v2
        (newNodes.dropLast ++ pr.1, used || pr.2)
      | _ => (newNodes, used)
    else ([Node.text v], false)

mutual

/-- Depth-first descent of `visit(tree, 'text', …)` into one node; returns the
rewritten node and whether an annotation was emitted below it. -/
def visitNode (st : List (Str × TermObj)) (route : Str) : Node → Node × Bool
  | Node.text v => (Node.text v, false)
  | Node.esm v s => (Node.esm v s, false)
  | Node.elem ty name attrs children =>
    let pr := visitChildren st route ty children
    (Node.elem ty name attrs pr.1, pr.2)

/-- The traversal over a parent's child list: text children of protected
parents are skipped, other text children go through `processText`, the rest
are descended into. -/
def visitChildren (st : List (Str × TermObj)) (route parentTy : Str) : List Node → List Node × Bool
  | [] => ([], false)
  | Node.text v :: rest =>
    if protectedTy parentTy then
      let pr := visitChildren st route parentTy rest
      (Node.text v :: pr.1, pr.2)
    else
      let pt := processText st route parentTy (v.length + 1) v
      let pr := visitChildren st route parentTy rest
      (pt.1 ++ pr.1, pt.2 || pr.2)
  | c :: rest =>
    let pc := visitNode st route c
    let pr := visitChildren st route parentTy rest
    (pc.1 :: pr.1, pc.2 || pr.2)

end

/-- The injected `mdxjsEsm` import declaration for the annotation component. -/
def importNode : Node :=
  Node.esm ("import GlossaryTerm from \"@theme/GlossaryTerm\";".data) [("@theme/GlossaryTerm".data)]

/-- The existing-declaration test: an `mdxjsEsm` node whose value contains
`@theme/GlossaryTerm` or whose parsed body imports from it. -/
def isGlossaryImport : Node → Bool
  | Node.esm v srcs => containsSub v ("@theme/GlossaryTerm".data) || srcs.any (fun s => s = "@theme/GlossaryTerm".data)
  | _ => false

/-- `tree.children.some(…)` over `isGlossaryImport`. -/
def hasImport (cs : List Node) : Bool := cs.any isGlossaryImport

/-- The insertion index for the import: after the leading run of front-matter
(`yaml` / `toml`) nodes. -/
def leadingMetaCount : List Node → Nat
  | Node.elem ty _ _ _ :: rest =>
    if ty = "yaml".data || ty = "toml".data then 1 + leadingMetaCount rest else 0
  | _ => 0

/-- Splice the import declaration in at the computed index. -/
def insertImportAt (cs : List Node) : List Node :=
  cs.take (leadingMetaCount cs) ++ importNode :: cs.drop (leadingMetaCount cs)

/-- The per-document transformer returned by `remarkGlossaryTerms`: visit all
text nodes, then — when an annotation was emitted and no declaration for the
component exists among the top-level children — inject the import once.  The
source presumes a container root (`visit` hands `undefined` parents to the
callback otherwise), so childless roots pass through unchanged. -/
def transformer (st : List (Str × TermObj)) (route : Str) (tree : Node) : Node :=
  match tree with
  | Node.elem ty name attrs children =>
    let pr := visitChildren st route ty children
    if pr.2 && !hasImport pr.1 then Node.elem ty name attrs (insertImportAt pr.1)
    else Node.elem ty name attrs pr.1
  | t => t

/-- `remarkGlossaryTerms({terms, routePath})` with the terms given directly:
build the sorted term index; with no usable terms return the no-op
transformer. -/
def remarkGlossaryTerms (terms : List TermObj) (routePath : Str) : Node → Node :=
  let sortedTerms := buildSortedTerms terms
  if sortedTerms.isEmpty then fun tree => tree
  else transformer sortedTerms routePath

/-- The glossary-import count among a tree's top-level children. -/
def countTopImports : Node → Nat
  | Node.elem _ _ _ cs => cs.countP isGlossaryImport
  | _ => 0

/-- The text a replacement node contributes: its own value for plain text, the
values of its text children for an annotation element. -/
def childText : Node → Str
  | Node.text v => v
  | _ => []

/-- The text carried by one node of a replacement sequence. -/
def nodeText : Node → Str
  | Node.text v => v
  | Node.elem _ _ _ cs => (cs.map childText).flatten
  | Node.esm _ _ => []

/-- The concatenated text of a replacement sequence. -/
def seqText (ns : List Node) : Str := (ns.map nodeText).flatten

/-! ## The validator (`validateGlossaryData` of `src/validation.ts`) -/

/-- A JavaScript value as the validator can receive one. -/
inductive JSVal where
  | null
  | undef
  | str (s : Str)
  | num (n : Int)
  | bool (b : Bool)
  | arr (elems : List JSVal)
  | obj (fields : List (Str × JSVal))

/-- `typeof`, as the validator's messages print it (`typeof null` is
`object`, and arrays are objects). -/
def typeofStr : JSVal → Str
  | JSVal.null => "object".data
  | JSVal.undef => "undefined".data
  | JSVal.str _ => "string".data
  | JSVal.num _ => "number".data
  | JSVal.bool _ => "boolean".data
  | JSVal.arr _ => "object".data
  | JSVal.obj _ => "object".data

/-- The `in` operator for the fixed, non-numeric keys the validator queries
(`term`, `definition`, `abbreviation`, `relatedTerms`, `id`, `terms`): key
membership on objects; on arrays only `length` would answer true, and none of
the queried keys is `length`. -/
def hasKeyV : JSVal → Str → Bool
  | JSVal.obj fields, k => fields.any (fun p => p.1 = k)
  | JSVal.arr _, k => k = "length".data
  | _, _ => false

/-- Property read for those same keys: the last field of that name on an
object (later keys win in JavaScript), `undefined` elsewhere. -/
def getFieldV : JSVal → Str → JSVal
  | JSVal.obj fields, k =>
    match fields.reverse.find? (fun p => p.1 = k) with
    | some p => p.2
    | none => JSVal.undef
  | _, _ => JSVal.undef

/-- `String.prototype.trim` (ASCII whitespace). -/
def jsTrim (s : Str) : Str :=
  ((s.dropWhile Char.isWhitespace).reverse.dropWhile Char.isWhitespace).reverse

/-- Decimal rendering of an index for the `terms[i]` field paths. -/
def natStr (n : Nat) : Str := (Nat.repr n).data

/-- A `ValidationError` entry: `{field, message, value?}`. -/
structure VError where
  field : Str
  message : Str
  value : Option JSVal

/-- One error of `validateTerm` before the `terms[index]` prefix is applied:
the suffix of the field path, the message, and the offending value. -/
structure CErr where
  fieldSuffix : Str
  message : Str
  value : Option JSVal

/-- The per-element check of `relatedTerms`. -/
def relatedTermsErrs : List JSVal → Nat → List CErr
  | [], _ => []
  | JSVal.str _ :: rest, j => relatedTermsErrs rest (j + 1)
  | v :: rest, j =>
    { fieldSuffix := ".relatedTerms[".data ++ natStr j ++ "]".data,
      message := "Related term must be a string, got ".data ++ typeofStr v,
      value := some v } :: relatedTermsErrs rest (j + 1)

/-- `validateTerm` with the `terms[index]` prefix factored out of the field
paths (the prefix is applied uniformly to every error, so it is added by
`validateTerm` below; nothing else depends on the index). The checks run in
source order: required `term`, required `definition`, then the optional
`abbreviation`, `relatedTerms` and `id`. -/
def validateTermCore (term : JSVal) : List CErr :=
  match term with
  | JSVal.null => [{ fieldSuffix := [], message := "Term cannot be null or undefined".data, value := some JSVal.null }]
  | JSVal.undef => [{ fieldSuffix := [], message := "Term cannot be null or undefined".data, value := some JSVal.undef }]
  | t =>
    if typeofStr t = "object".data then
      (if !hasKeyV t ("term".data) then
        [{ fieldSuffix := ".term".data, message := "Missing required field \"term\"".data, value := none }]
      else match getFieldV t ("term".data) with
        | JSVal.str s =>
          if (jsTrim s).isEmpty then
            [{ fieldSuffix := ".term".data, message := "Field \"term\" cannot be empty".data, value := some (JSVal.str s) }]
          else []
        | v =>
          [{ fieldSuffix := ".term".data,
             message := "Field \"term\" must be a string, got ".data ++ typeofStr v, value := some v }])
      ++ (if !hasKeyV t ("definition".data) then
        [{ fieldSuffix := ".definition".data, message := "Missing required field \"definition\"".data, value := none }]
      else match getFieldV t ("definition".data) with
        | JSVal.str _ => []
        | v =>
          [{ fieldSuffix := ".definition".data,
             message := "Field \"definition\" must be a string, got ".data ++ typeofStr v, value := some v }])
      ++ (if hasKeyV t ("abbreviation".data) then
        match getFieldV t ("abbreviation".data) with
        | JSVal.undef => []
        | JSVal.str _ => []
        | v =>
          [{ fieldSuffix := ".abbreviation".data,
             message := "Field \"abbreviation\" must be a string, got ".data ++ typeofStr v, value := some v }]
      else [])
      ++ (if hasKeyV t ("relatedTerms".data) then
        match getFieldV t ("relatedTerms".data) with
        | JSVal.undef => []
        | JSVal.arr elems => relatedTermsErrs elems 0
        | v =>
          [{ fieldSuffix := ".relatedTerms".data,
             message := "Field \"relatedTerms\" must be an array, got ".data ++ typeofStr v, value := some v }]
      else [])
      ++ (if hasKeyV t ("id".data) then
        match getFieldV t ("id".data) with
        | JSVal.undef => []
        | JSVal.str _ => []
        | v =>
          [{ fieldSuffix := ".id".data,
             message := "Field \"id\" must be a string, got ".data ++ typeofStr v, value := some v }]
      else [])
    else
      [{ fieldSuffix := [], message := "Term must be an object, got ".data ++ typeofStr t, value := some t }]

/-- The field-path prefix `terms[index]`. -/
def termPrefix (index : Nat) : Str := "terms[".data ++ natStr index ++ "]".data

/-- `validateTerm(term, index)`: the core checks with the `terms[index]`
prefix on every field path. -/
def validateTerm (term : JSVal) (index : Nat) : List VError :=
  (validateTermCore term).map fun e =>
    { field := termPrefix index ++ e.fieldSuffix, message := e.message, value := e.value }

/-- The `forEach` over the terms array: collect each term's errors and keep
the valid terms in order; an invalid term never stops the following ones. -/
def validateTermsAux : List JSVal → Nat → List VError × List JSVal
  | [], _ => ([], [])
  | t :: ts, i =>
    let errs := validateTerm t i
    let rest := validateTermsAux ts (i + 1)
    if errs.isEmpty then (rest.1, t :: rest.2) else (errs ++ rest.1, rest.2)

/-- The duplicate-detection pass over the valid terms: a case-folded term
string already seen produces a `Duplicate term` error naming the first
occurrence's index; the term itself stays in the list (the source never
removes it). -/
def dupErrorsGo : List JSVal → Nat → List (Str × Nat) → List VError
  | [], _, _ => []
  | t :: ts, i, seen =>
    let termStr := match getFieldV t ("term".data) with
      | JSVal.str s => s
      | _ => []
    let lowerName := toLowerStr termStr
    match seen.find? (fun p => p.1 = lowerName) with
    | some p =>
      { field := termPrefix i ++ ".term".data,
        message := ("Duplicate term \"".data ++ termStr ++ "\" (first occurrence at index ".data
          ++ natStr p.2 ++ ")".data),
        value := some (JSVal.str termStr) } :: dupErrorsGo ts (i + 1) seen
    | none => dupErrorsGo ts (i + 1) (seen ++ [(lowerName, i)])

/-- The duplicate-detection pass started on the valid subset. -/
def dupErrors (validTerms : List JSVal) : List VError := dupErrorsGo validTerms 0 []

/-- The result shape of `validateGlossaryData`: `{valid, errors, data.terms}`. -/
structure ValidationResult where
  valid : Bool
  errors : List VError
  terms : List JSVal

/-- `validateGlossaryData(data, {throwOnError: false})`.  (With
`throwOnError: true` the source instead raises a `GlossaryValidationError`
carrying the same error list whenever it is non-empty; the claims exercise the
non-throwing path.)  Root checks stop early with an empty term list; then
every term is checked independently and the duplicate pass runs over the
valid subset. -/
def validateGlossaryData (data : JSVal) : ValidationResult :=
  match data with
  | JSVal.null =>
    { valid := false,
      errors := [{ field := "root".data, message := "Glossary data cannot be null or undefined".data, value := some JSVal.null }],
      terms := [] }
  | JSVal.undef =>
    { valid := false,
      errors := [{ field := "root".data, message := "Glossary data cannot be null or undefined".data, value := some JSVal.undef }],
      terms := [] }
  | d =>
    if typeofStr d = "object".data then
      if !hasKeyV d ("terms".data) then
        { valid := false,
          errors := [{ field := "terms".data, message := "Glossary data must contain a \"terms\" array".data, value := none }],
          terms := [] }
      else match getFieldV d ("terms".data) with
        | JSVal.arr ts =>
          let perTerm := validateTermsAux ts 0
          let errors := perTerm.1 ++ dupErrors perTerm.2
          { valid := errors.isEmpty, errors := errors, terms := perTerm.2 }
        | v =>
          { valid := false,
            errors := [{ field := "terms".data,
                         message := "Field \"terms\" must be an array, got ".data ++ typeofStr v,
                         value := some v }],
            terms := [] }
    else
      { valid := false,
        errors := [{ field := "root".data, message := "Glossary data must be an object, got ".data ++ typeofStr d, value := some d }],
        terms := [] }

/-- A glossary input whose `terms` field is the given array (the shape every
well-formed call passes the validator). -/
def mkTermsInput (ts : List JSVal) : JSVal := JSVal.obj [(("terms".data), JSVal.arr ts)]

/-- A term object `{term, definition}` as a JavaScript value. -/
def mkTermVal (term definition : Str) : JSVal :=
  JSVal.obj [(("term".data), JSVal.str term), (("definition".data), JSVal.str definition)]

/-! ## Helper lemmas -/

theorem mem_insertByIndex (y m : Match) (l : List Match) :
    y ∈ insertByIndex m l ↔ y = m ∨ y ∈ l := by
  induction l with
  | nil => simp [insertByIndex]
  | cons x xs ih =>
    by_cases hm : m.index ≤ x.index
    · simp [insertByIndex, hm]
    · simp [insertByIndex, hm, ih]
      tauto

theorem mem_sortByIndex (y : Match) (ms : List Match) (h : y ∈ sortByIndex ms) : y ∈ ms := by
  induction ms with
  | nil => simp [sortByIndex] at h
  | cons m ms ih =>
    rcases (mem_insertByIndex y m (sortByIndex ms)).1 (by simpa [sortByIndex] using h) with h1 | h1
    · simp [h1]
    · simp [ih h1]

theorem pairwise_insertByIndex (m : Match) (l : List Match)
    (h : l.Pairwise (fun a b => a.index ≤ b.index)) :
    (insertByIndex m l).Pairwise (fun a b => a.index ≤ b.index) := by
  induction l with
  | nil => simp [insertByIndex]
  | cons x xs ih =>
    rcases List.pairwise_cons.1 h with ⟨hx, hxs⟩
    by_cases hm : m.index ≤ x.index
    · simp only [insertByIndex, hm, if_pos]
      refine List.pairwise_cons.2 ⟨?_, h⟩
      intro y hy
      rcases List.mem_cons.1 hy with rfl | hy
      · exact hm
      · exact le_trans hm (hx y hy)
    · simp only [insertByIndex, hm, if_neg, not_false_iff]
      refine List.pairwise_cons.2 ⟨?_, ih hxs⟩
      intro y hy
      rcases (mem_insertByIndex y m xs).1 hy with rfl | hy
      · omega
      · exact hx y hy

theorem pairwise_sortByIndex (ms : List Match) :
    (sortByIndex ms).Pairwise (fun a b => a.index ≤ b.index) := by
  induction ms with
  | nil => simp [sortByIndex]
  | cons m ms ih => exact pairwise_insertByIndex m (sortByIndex ms) ih

theorem keptEnd_concat (kept : List Match) (m : Match) :
    keptEnd (kept ++ [m]) = m.index + m.length := by
  simp [keptEnd, List.getLast?_concat]

theorem specResolveGo_eq (ms : List Match) :
    ∀ kept, specResolveGo kept ms = kept ++ removeOverlapsGo ms (keptEnd kept) := by
  induction ms with
  | nil => intro kept; simp [specResolveGo, removeOverlapsGo]
  | cons m ms ih =>
    intro kept
    by_cases hm : m.index ≥ keptEnd kept
    · simp only [specResolveGo, removeOverlapsGo, hm, if_pos]
      rw [ih (kept ++ [m]), keptEnd_concat]
      simp
    · simp only [specResolveGo, removeOverlapsGo, hm, if_neg, not_false_iff]
      exact ih kept

theorem seqText_nil : seqText [] = [] := rfl

theorem seqText_cons (n : Node) (ns : List Node) :
    seqText (n :: ns) = nodeText n ++ seqText ns := by
  simp [seqText]

theorem seqText_append (a b : List Node) : seqText (a ++ b) = seqText a ++ seqText b := by
  simp [seqText]

theorem nodeText_annot (route : Str) (m : Match) :
    nodeText (annotNode route m) = m.originalText := by
  simp [annotNode, nodeText, childText]

theorem substringL_append_drop (text : Str) (a b : Nat) (hab : a ≤ b) :
    substringL text a b ++ text.drop b = text.drop a := by
  have hd : text.drop b = (text.drop a).drop (b - a) := by
    rw [List.drop_drop]
    congr 1
    omega
  rw [substringL, hd, List.take_append_drop]

theorem substringL_self (text : Str) (a : Nat) :
    substringL text a text.length = text.drop a := by
  have hlen : (text.drop a).length = text.length - a := List.length_drop a text
  calc substringL text a text.length
      = (text.drop a).take (text.length - a) := rfl
    _ = (text.drop a).take (text.drop a).length := by rw [hlen]
    _ = text.drop a := List.take_length (text.drop a)

/-- Every candidate match records as `originalText` exactly the slice of the
source text its offsets describe. -/
theorem scanTerm_originalText (textLower text lowerTerm : Str) (tobj : TermObj) :
    ∀ suffix pos m, m ∈ scanTerm textLower text lowerTerm tobj suffix pos →
      m.originalText = substringL text m.index (m.index + m.length) := by
  intro suffix
  induction suffix with
  | nil => intro pos m h; simp [scanTerm] at h
  | cons c rest ih =>
    intro pos m h
    simp only [scanTerm] at h
    by_cases hpre : startsWithStr lowerTerm (c :: rest) = true
    · rw [if_pos hpre] at h
      cases hcc : checkCandidate textLower tobj.term.length pos with
      | none => rw [hcc] at h; exact ih (pos + 1) m h
      | some len =>
        rw [hcc] at h
        rcases List.mem_cons.1 h with rfl | h2
        · rfl
        · exact ih (pos + 1) m h2
    · rw [if_neg hpre] at h
      exact ih (pos + 1) m h

theorem collectMatches_originalText (st : List (Str × TermObj)) (text : Str) (m : Match)
    (h : m ∈ collectMatches st text) :
    m.originalText = substringL text m.index (m.index + m.length) := by
  rw [collectMatches] at h
  induction st with
  | nil => simp [collectMatchesGo] at h
  | cons p rest ih =>
    simp only [collectMatchesGo, List.mem_append] at h
    rcases h with h | h
    · exact scanTerm_originalText (toLowerStr text) text p.1 p.2 (toLowerStr text) 0 m h
    · exact ih h

/-- The greedy loop and the splice loop together reproduce the text after
`lastEnd`: non-overlap of the kept matches is forced by the loop itself. -/
theorem removeOverlaps_buildResult_text (text route : Str) :
    ∀ ms lastEnd,
      (∀ m ∈ ms, m.originalText = substringL text m.index (m.index + m.length)) →
      seqText (buildResult text route (removeOverlapsGo ms lastEnd) lastEnd) = text.drop lastEnd := by
  intro ms
  induction ms with
  | nil =>
    intro lastEnd _
    by_cases hl : lastEnd < text.length
    · simp only [removeOverlapsGo, buildResult, hl, if_pos]
      rw [seqText_cons, seqText_nil]
      simp [nodeText, substringL_self text lastEnd]
    · simp only [removeOverlapsGo, buildResult, hl, if_neg, not_false_iff]
      rw [seqText_nil, List.drop_eq_nil_of_le]
      omega
  | cons m ms ih =>
    intro lastEnd hmem
    have hm := hmem m (List.mem_cons_self m ms)
    have hrest : ∀ x ∈ ms, x.originalText = substringL text x.index (x.index + x.length) :=
      fun x hx => hmem x (List.mem_cons_of_mem m hx)
    by_cases hk : m.index ≥ lastEnd
    · simp only [removeOverlapsGo, hk, if_pos]
      by_cases hgt : m.index > lastEnd
      · simp only [buildResult, hgt, if_pos, List.singleton_append]
        rw [seqText_cons, seqText_cons, nodeText_annot,
          ih (m.index + m.length) hrest, hm]
        have h1 : substringL text m.index (m.index + m.length) ++ text.drop (m.index + m.length)
            = text.drop m.index := substringL_append_drop text _ _ (by omega)
        rw [show nodeText (Node.text (substringL text lastEnd m.index))
            = substringL text lastEnd m.index from rfl]
        rw [← List.append_assoc] at *
        rw [List.append_assoc, h1]
        exact substringL_append_drop text lastEnd m.index (le_of_lt hgt)
      · have heq : m.index = lastEnd := by omega
        simp only [buildResult, hgt, if_neg, not_false_iff, List.nil_append]
        rw [seqText_cons, nodeText_annot, ih (m.index + m.length) hrest, hm, heq]
        exact substringL_append_drop text lastEnd (lastEnd + m.length) (by omega)
    · simp only [removeOverlapsGo, hk, if_neg, not_false_iff]
      exact ih lastEnd hrest

theorem visitNode_import (st : List (Str × TermObj)) (route : Str) (n : Node) :
    isGlossaryImport (visitNode st route n).1 = isGlossaryImport n := by
  cases n <;> simp [visitNode, isGlossaryImport]

theorem mem_buildResult_no_import (text route : Str) :
    ∀ ms lastIndex n, n ∈ buildResult text route ms lastIndex → isGlossaryImport n = false := by
  intro ms
  induction ms with
  | nil =>
    intro lastIndex n h
    simp only [buildResult] at h
    split at h
    · rcases List.mem_singleton.1 h with rfl
      rfl
    · simp at h
  | cons m ms ih =>
    intro lastIndex n h
    simp only [buildResult, List.mem_append, List.mem_cons] at h
    rcases h with h | h | h
    · split at h
      · rcases List.mem_singleton.1 h with rfl
        rfl
      · simp at h
    · subst h; rfl
    · exact ih (m.index + m.length) n h

theorem mem_replaceTermsInText_no_import (st : List (Str × TermObj)) (route text : Str) :
    ∀ n ∈ replaceTermsInText st route text, isGlossaryImport n = false := by
  intro n h
  simp only [replaceTermsInText] at h
  split at h
  · rcases List.mem_singleton.1 h with rfl
    rfl
  · split at h
    · rcases List.mem_singleton.1 h with rfl
      rfl
    · exact mem_buildResult_no_import text route _ 0 n h

theorem convertForParent_import (p : Str) (n : Node) :
    isGlossaryImport (convertForParent p n) = isGlossaryImport n := by
  cases n with
  | text v => rfl
  | esm v s => rfl
  | elem ty name attrs children =>
    simp only [convertForParent]
    split <;> rfl

theorem mem_processText_no_import (st : List (Str × TermObj)) (route pTy : Str) :
    ∀ fuel v n, n ∈ (processText st route pTy fuel v).1 → isGlossaryImport n = false := by
  intro fuel
  induction fuel with
  | zero =>
    intro v n h
    rcases List.mem_singleton.1 h with rfl
    rfl
  | succ fuel ih =>
    intro v n h
    simp only [processText] at h
    by_cases hsp : spliceCond (replaceTermsInText st route v) = true
    · rw [if_pos hsp] at h
      have hmap : ∀ x ∈ (replaceTermsInText st route v).map (convertForParent pTy),
          isGlossaryImport x = false := by
        intro x hx
        rcases List.mem_map.1 hx with ⟨r, hr, rfl⟩
        rw [convertForParent_import]
        exact mem_replaceTermsInText_no_import st route v r hr
      cases hlast : ((replaceTermsInText st route v).map (convertForParent pTy)).getLast? with
      | none =>
        rw [hlast] at h
        exact hmap n h
      | some last =>
        rw [hlast] at h
        cases last with
        | text v2 =>
          simp only [List.mem_append] at h
          rcases h with h | h
          · exact hmap n ((List.dropLast_sublist _).subset h)
          · exact ih v2 n h
        | esm a b => exact hmap n h
        | elem a b c d => exact hmap n h
    · rw [if_neg hsp] at h
      rcases List.mem_singleton.1 h with rfl
      rfl

theorem visitChildren_countP (st : List (Str × TermObj)) (route : Str) (ty : Str) :
    ∀ cs : List Node,
      ((visitChildren st route ty cs).1).countP isGlossaryImport = cs.countP isGlossaryImport := by
  intro cs
  induction cs with
  | nil => simp [visitChildren]
  | cons c rest ih =>
    cases c with
    | text v =>
      simp only [visitChildren]
      by_cases hp : protectedTy ty = true
      · simp [hp, List.countP_cons, ih]
      · simp only [hp, Bool.false_eq_true, if_false, List.countP_append, List.countP_cons, ih]
        have h0 : ((processText st route ty (v.length + 1) v).1).countP isGlossaryImport = 0 := by
          rw [List.countP_eq_zero]
          intro a ha
          simp [mem_processText_no_import st route ty (v.length + 1) v a ha]
        rw [h0]
        simp [isGlossaryImport]
    | esm a b =>
      simp [visitChildren, List.countP_cons, ih, visitNode_import]
    | elem a b c d =>
      simp [visitChildren, List.countP_cons, ih, visitNode_import]

theorem importNode_is_import : isGlossaryImport importNode = true := by decide

theorem countP_insertImportAt (cs : List Node) :
    (insertImportAt cs).countP isGlossaryImport = cs.countP isGlossaryImport + 1 := by
  have h2 : (List.take (leadingMetaCount cs) cs).countP isGlossaryImport
      + (List.drop (leadingMetaCount cs) cs).countP isGlossaryImport
      = cs.countP isGlossaryImport := by
    rw [← List.countP_append, List.take_append_drop]
  rw [insertImportAt, List.countP_append, List.countP_cons, importNode_is_import]
  simp only [if_pos]
  omega

theorem hasImport_false_of_countP (cs : List Node) (h : cs.countP isGlossaryImport = 0) :
    hasImport cs = false := by
  rw [List.countP_eq_zero] at h
  rw [hasImport]
  rw [List.any_eq_false]
  intro x hx
  simp [h x hx]

theorem hasImport_true_of_countP (cs : List Node) (h : 0 < cs.countP isGlossaryImport) :
    hasImport cs = true := by
  rw [hasImport, List.any_eq_true]
  by_contra hc
  push_neg at hc
  have : cs.countP isGlossaryImport = 0 := by
    rw [List.countP_eq_zero]
    intro a ha
    intro hfa
    exact hc a ha hfa
  omega

theorem validateTerm_isEmpty (t : JSVal) (i : Nat) :
    (validateTerm t i).isEmpty = (validateTermCore t).isEmpty := by
  rw [validateTerm]
  cases validateTermCore t <;> rfl

theorem validateTermsAux_terms : ∀ (ts : List JSVal) (i : Nat),
    (validateTermsAux ts i).2 = ts.filter (fun t => (validateTermCore t).isEmpty) := by
  intro ts
  induction ts with
  | nil => intro i; rfl
  | cons t ts ih =>
    intro i
    simp only [validateTermsAux, List.filter_cons]
    by_cases he : (validateTerm t i).isEmpty = true
    · rw [if_pos he]
      rw [validateTerm_isEmpty] at he
      simp [he, ih (i + 1)]
    · rw [if_neg he]
      rw [validateTerm_isEmpty] at he
      simp only [Bool.not_eq_true] at he
      simp [he, ih (i + 1)]

theorem lookup_mapSet : ∀ (m : List (Str × TermObj)) (k : Str) (v : TermObj) (k2 : Str),
    lookupTermMap (mapSet m k v) k2 = if k2 = k then some v else lookupTermMap m k2 := by
  intro m
  induction m with
  | nil =>
    intro k v k2
    by_cases h : k2 = k
    · subst h; simp [mapSet, lookupTermMap]
    · have h2 : ¬(k = k2) := fun hh => h (Eq.symm hh)
      simp [mapSet, lookupTermMap, h, h2]
  | cons p ps ih =>
    intro k v k2
    simp only [mapSet]
    by_cases hp : p.1 = k
    · rw [if_pos hp]
      by_cases h2 : k2 = k
      · subst h2; simp [lookupTermMap]
      · have hp2 : ¬(k = k2) := fun hh => h2 (Eq.symm hh)
        have hp3 : ¬(p.1 = k2) := by rw [hp]; exact hp2
        simp [lookupTermMap, h2, hp2, hp3]
    · rw [if_neg hp]
      by_cases h3 : p.1 = k2
      · have h2 : ¬(k2 = k) := fun hh => hp (by rw [h3, hh])
        simp [lookupTermMap, h3, h2]
      · simp [lookupTermMap, h3, ih k v k2]

theorem find?_append_match {α : Type} (l1 l2 : List α) (p : α → Bool) :
    (l1 ++ l2).find? p = match l1.find? p with
      | some u => some u
      | none => l2.find? p := by
  induction l1 with
  | nil => simp
  | cons x xs ih =>
    by_cases hx : p x = true
    · simp [List.find?_cons_of_pos, hx]
    · simp only [List.cons_append, List.find?_cons_of_neg _ hx]
      exact ih

theorem lookup_buildTermMap_go : ∀ (ts : List TermObj) (acc : List (Str × TermObj)) (k : Str),
    lookupTermMap
        (ts.foldl (fun m t => if t.term.isEmpty then m else mapSet m (toLowerStr t.term) t) acc) k
      = match (ts.filter (fun t => !t.term.isEmpty)).reverse.find? (fun t => toLowerStr t.term = k) with
        | some u => some u
        | none => lookupTermMap acc k := by
  intro ts
  induction ts with
  | nil => intro acc k; rfl
  | cons t ts ih =>
    intro acc k
    by_cases ht : t.term.isEmpty = true
    · simp only [List.foldl_cons, ht, if_pos, List.filter_cons, Bool.not_eq_true']
      rw [if_neg (by simp [ht])]
      exact ih acc k
    · simp only [List.foldl_cons, ht, Bool.false_eq_true, if_false, List.filter_cons]
      rw [if_pos (by simp [ht])]
      rw [ih (mapSet acc (toLowerStr t.term) t) k]
      simp only [List.reverse_cons]
      rw [find?_append_match ((ts.filter (fun t => !t.term.isEmpty)).reverse) [t]]
      cases hf : ((ts.filter (fun t => !t.term.isEmpty)).reverse).find? (fun t => toLowerStr t.term = k) with
      | some u => rfl
      | none =>
        simp only [List.find?_singleton]
        rw [lookup_mapSet]
        by_cases hk : toLowerStr t.term = k
        · simp [hk]
        · have hk2 : ¬(k = toLowerStr t.term) := fun hh => hk (Eq.symm hh)
          simp [hk, hk2]

/-! ## The claims -/

/-- Claim C7: the transformer obtained from an empty term record list is the
identity on every tree: `remarkGlossaryTerms` derives an empty sorted term
index and returns the no-op `tree => tree`. -/
theorem c7_empty_glossary_noop : ∀ (routePath : Str) (tree : Node),
    remarkGlossaryTerms [] routePath tree = tree := fun _ _ => rfl

/-- Claim C2, counterexample: for the input
`{terms: [{term: "API", definition: "x"}, {term: "api", definition: "y"}]}`
(with `throwOnError: false`) the returned `data.terms` has TWO entries, not
exactly one: the duplicate pass of `validateGlossaryData` only reports the
later duplicate, it never removes it from `validTerms`. -/
theorem c2_duplicate_excluded_counterexample :
    (validateGlossaryData (mkTermsInput
        [mkTermVal ("API".data) ("x".data), mkTermVal ("api".data) ("y".data)])).terms.length = 2
    ∧ (validateGlossaryData (mkTermsInput
        [mkTermVal ("API".data) ("x".data), mkTermVal ("api".data) ("y".data)])).terms.length ≠ 1 := by
  exact ⟨rfl, by decide⟩

/-- Claim C2 as amended: every case-folded duplicate after the first is
reported as an error but is KEPT in the returned `data.terms`: the duplicate
pass never shrinks the valid-term list (its length is that of the per-term
filter), and on the example input the call returns `valid: false`, an error
whose message mentions `Duplicate term`, and `data.terms` holding both the
`API` and the `api` entries in input order. -/
theorem c2_duplicate_reported_not_excluded :
    (∀ ts : List JSVal,
      (validateGlossaryData (mkTermsInput ts)).terms.length
        = (ts.filter (fun t => (validateTermCore t).isEmpty)).length)
    ∧ (validateGlossaryData (mkTermsInput
        [mkTermVal ("API".data) ("x".data), mkTermVal ("api".data) ("y".data)])).valid = false
    ∧ (validateGlossaryData (mkTermsInput
        [mkTermVal ("API".data) ("x".data), mkTermVal ("api".data) ("y".data)])).errors.any
        (fun e => containsSub e.message ("Duplicate term".data)) = true
    ∧ (validateGlossaryData (mkTermsInput
        [mkTermVal ("API".data) ("x".data), mkTermVal ("api".data) ("y".data)])).terms
      = [mkTermVal ("API".data) ("x".data), mkTermVal ("api".data) ("y".data)] := by
  refine ⟨?_, rfl, by decide, rfl⟩
  intro ts
  have h : (validateGlossaryData (mkTermsInput ts)).terms
      = ts.filter (fun t => (validateTermCore t).isEmpty) := validateTermsAux_terms ts 0
  rw [h]

/-- Claim C8: a term object failing any required-field or optional-field check
is excluded from `data.terms` but does not block the remaining terms — the
returned list is exactly the order-preserving filter of the input by
per-object validity — and on the example input (`API`, an empty term, `SDK`)
the call returns `valid: false`, `data.terms = [API, SDK]` in input order, and
an error whose field path references index 1. -/
theorem c8_partial_validation :
    (∀ ts : List JSVal,
      (validateGlossaryData (mkTermsInput ts)).terms
        = ts.filter (fun t => (validateTermCore t).isEmpty))
    ∧ (validateGlossaryData (mkTermsInput
        [mkTermVal ("API".data) ("ok".data), mkTermVal ([]) ("bad".data),
         mkTermVal ("SDK".data) ("ok".data)])).valid = false
    ∧ (validateGlossaryData (mkTermsInput
        [mkTermVal ("API".data) ("ok".data), mkTermVal ([]) ("bad".data),
         mkTermVal ("SDK".data) ("ok".data)])).terms
      = [mkTermVal ("API".data) ("ok".data), mkTermVal ("SDK".data) ("ok".data)]
    ∧ (validateGlossaryData (mkTermsInput
        [mkTermVal ("API".data) ("ok".data), mkTermVal ([]) ("bad".data),
         mkTermVal ("SDK".data) ("ok".data)])).errors.any
        (fun e => containsSub e.field ("terms[1]".data)) = true := by
  exact ⟨fun ts => validateTermsAux_terms ts 0, rfl, rfl, by decide⟩

/-- Claim C10: the term index built by `remarkGlossaryTerms` keeps, for every
case-folded key, only the LAST record of the input whose (non-empty) term
case-folds to that key — `Map.set` overwrites — and consequently with records
`{API, "first"}` then `{api, "second"}` the annotation emitted for the text
`the api is` carries the later record's term and definition. -/
theorem c10_later_duplicate_record_wins :
    (∀ (terms : List TermObj) (k : Str),
      lookupTermMap (buildTermMap terms) k
        = (terms.filter (fun t => !t.term.isEmpty)).reverse.find? (fun t => toLowerStr t.term = k))
    ∧ replaceTermsInText
        (buildSortedTerms [⟨ "API".data, "first".data⟩, ⟨ "api".data, "second".data⟩])
        ("/glossary".data) ("the api is".data)
      = [Node.text ("the ".data),
         annotNode ("/glossary".data)
           { index := 4, length := 3, term := "api".data, definition := "second".data,
             originalText := "api".data },
         Node.text (" is".data)] := by
  refine ⟨?_, rfl⟩
  intro terms k
  have h := lookup_buildTermMap_go terms [] k
  rw [buildTermMap, h]
  cases hf : ((terms.filter (fun t => !t.term.isEmpty)).reverse).find? (fun t => toLowerStr t.term = k) with
  | some u => rfl
  | none => rfl

theorem checkCandidate_exact_of_boundaries (tl : Str) (termLen idx : Nat)
    (hb : idx = 0 ∨ isWordChar (tl.getD (idx - 1) ' ') = false)
    (ha : tl.length ≤ idx + termLen ∨ isWordChar (tl.getD (idx + termLen) ' ') = false) :
    checkCandidate tl termLen idx = some termLen := by
  have hb2 : (!isWordChar (if idx > 0 then tl.getD (idx - 1) ' ' else ' ')) = true := by
    rcases hb with h0 | h0
    · rw [if_neg (by omega)]
      decide
    · by_cases hidx : idx > 0
      · rw [if_pos hidx, Bool.not_eq_true', h0]
      · rw [if_neg hidx]
        decide
  have ha2 : (!isWordChar (if idx + termLen < tl.length then tl.getD (idx + termLen) ' ' else ' ')) = true := by
    rcases ha with h0 | h0
    · rw [if_neg (by omega)]
      decide
    · by_cases hlen : idx + termLen < tl.length
      · rw [if_pos hlen, Bool.not_eq_true', h0]
      · rw [if_neg hlen]
        decide
  rw [checkCandidate]
  rw [if_pos (by rw [hb2, ha2]; rfl)]

/-- Claim C4: a candidate occurrence is accepted as an exact whole-word match
(resolved length equal to the term's length) if and only if the characters
immediately before and after the span are each absent (start/end of string) or
non-word; concretely, `API` does not match inside `APIserver`, does match in
`the API is`, and `REST` does not match the token `RESTful`. -/
theorem c4_whole_word_boundary :
    (∀ (tl : Str) (termLen idx : Nat),
      checkCandidate tl termLen idx = some termLen ↔
        ((idx = 0 ∨ isWordChar (tl.getD (idx - 1) ' ') = false) ∧
         (tl.length ≤ idx + termLen ∨ isWordChar (tl.getD (idx + termLen) ' ') = false)))
    ∧ replaceTermsInText (buildSortedTerms [⟨ "API".data, "an interface".data⟩])
        ("/glossary".data) ("APIserver".data) = [Node.text ("APIserver".data)]
    ∧ replaceTermsInText (buildSortedTerms [⟨ "API".data, "an interface".data⟩])
        ("/glossary".data) ("the API is".data)
      = [Node.text ("the ".data),
         annotNode ("/glossary".data)
           { index := 4, length := 3, term := "API".data, definition := "an interface".data,
             originalText := "API".data },
         Node.text (" is".data)]
    ∧ replaceTermsInText (buildSortedTerms [⟨ "REST".data, "a style".data⟩])
        ("/glossary".data) ("RESTful".data) = [Node.text ("RESTful".data)] := by
  refine ⟨?_, rfl, rfl, rfl⟩
  intro tl termLen idx
  constructor
  · intro h
    have hcond : (!isWordChar (if idx > 0 then tl.getD (idx - 1) ' ' else ' ')
        && !isWordChar (if idx + termLen < tl.length then tl.getD (idx + termLen) ' ' else ' ')) = true := by
      by_contra hc
      simp only [checkCandidate] at h
      rw [if_neg hc] at h
      split_ifs at h
      all_goals (rw [Option.some.injEq] at h; omega)
    rw [Bool.and_eq_true, Bool.not_eq_true', Bool.not_eq_true'] at hcond
    obtain ⟨hb, ha⟩ := hcond
    constructor
    · by_cases hidx : idx > 0
      · rw [if_pos hidx] at hb
        exact Or.inr hb
      · exact Or.inl (by omega)
    · by_cases hlen : idx + termLen < tl.length
      · rw [if_pos hlen] at ha
        exact Or.inr ha
      · exact Or.inl (by omega)
  · rintro ⟨hb, ha⟩
    exact checkCandidate_exact_of_boundaries tl termLen idx hb ha

/-- Claim C3: when the strict boundary test fails only because the character
after the span is `s` (respectively `es`) and the character following the
suffix is absent or non-word, the occurrence is accepted with resolved length
`term length + 1` (respectively `+ 2`); the exact test is applied first (when
both boundaries hold the resolved length is exactly the term's length), and
the captured original-cased substring includes the plural suffix, as the
`webhook` / `webhooks fire events` run shows. -/
theorem c3_plural_tolerance :
    (∀ (tl : Str) (termLen idx : Nat),
      (idx = 0 ∨ isWordChar (tl.getD (idx - 1) ' ') = false) →
      (tl.length ≤ idx + termLen ∨ isWordChar (tl.getD (idx + termLen) ' ') = false) →
      checkCandidate tl termLen idx = some termLen)
    ∧ (∀ (tl : Str) (termLen idx : Nat),
      (idx = 0 ∨ isWordChar (tl.getD (idx - 1) ' ') = false) →
      idx + termLen < tl.length →
      tl.getD (idx + termLen) ' ' = 's' →
      (tl.length ≤ idx + termLen + 1 ∨ isWordChar (tl.getD (idx + termLen + 1) ' ') = false) →
      checkCandidate tl termLen idx = some (termLen + 1))
    ∧ (∀ (tl : Str) (termLen idx : Nat),
      (idx = 0 ∨ isWordChar (tl.getD (idx - 1) ' ') = false) →
      idx + termLen + 1 < tl.length →
      tl.getD (idx + termLen) ' ' = 'e' →
      tl.getD (idx + termLen + 1) ' ' = 's' →
      (tl.length ≤ idx + termLen + 2 ∨ isWordChar (tl.getD (idx + termLen + 2) ' ') = false) →
      checkCandidate tl termLen idx = some (termLen + 2))
    ∧ replaceTermsInText (buildSortedTerms [⟨ "webhook".data, "a callback".data⟩])
        ("/glossary".data) ("webhooks fire events".data)
      = [annotNode ("/glossary".data)
           { index := 0, length := 8, term := "webhook".data, definition := "a callback".data,
             originalText := "webhooks".data },
         Node.text (" fire events".data)] := by
  refine ⟨?_, ?_, ?_, rfl⟩
  · intro tl termLen idx hb ha
    exact checkCandidate_exact_of_boundaries tl termLen idx hb ha
  · intro tl termLen idx hb hlen hs hnext
    rw [checkCandidate]
    have hafter : (if idx + termLen < tl.length then tl.getD (idx + termLen) ' ' else ' ') = 's' := by
      rw [if_pos hlen, hs]
    have h1 : (!isWordChar (if idx > 0 then tl.getD (idx - 1) ' ' else ' ') &&
        !isWordChar (if idx + termLen < tl.length then tl.getD (idx + termLen) ' ' else ' ')) = false := by
      rw [hafter]
      simp [isWordChar]
    rw [if_neg (by rw [h1]; simp)]
    have hnext2 : (!isWordChar
        (if idx + termLen + 1 < tl.length then tl.getD (idx + termLen + 1) ' ' else ' ')) = true := by
      rcases hnext with h0 | h0
      · rw [if_neg (by omega)]
        decide
      · by_cases hl2 : idx + termLen + 1 < tl.length
        · rw [if_pos hl2, Bool.not_eq_true', h0]
        · rw [if_neg hl2]
          decide
    rw [if_pos (by rw [hafter, hnext2]; simp)]
  · intro tl termLen idx hb hlen he hs hnext
    rw [checkCandidate]
    have hafter : (if idx + termLen < tl.length then tl.getD (idx + termLen) ' ' else ' ') = 'e' := by
      rw [if_pos (by omega), he]
    have h1 : (!isWordChar (if idx > 0 then tl.getD (idx - 1) ' ' else ' ') &&
        !isWordChar (if idx + termLen < tl.length then tl.getD (idx + termLen) ' ' else ' ')) = false := by
      rw [hafter]
      simp [isWordChar]
    rw [if_neg (by rw [h1]; simp)]
    rw [if_neg (by rw [hafter]; simp)]
    have hnext2 : (!isWordChar
        (if idx + termLen + 2 < tl.length then tl.getD (idx + termLen + 2) ' ' else ' ')) = true := by
      rcases hnext with h0 | h0
      · rw [if_neg (by omega)]
        decide
      · by_cases hl2 : idx + termLen + 2 < tl.length
        · rw [if_pos hl2, Bool.not_eq_true', h0]
        · rw [if_neg hl2]
          decide
    rw [if_pos (by rw [hafter, hs, hnext2]; simp [hlen])]

/-- Claim C1: the candidate matches of a text node are sorted by ascending
start offset and overlaps are resolved greedily leftmost-first — the code's
loop keeps a match exactly when its start offset is at or after the end offset
of the last kept match, which is the spec's `specResolve` — and with `API` and
`Application Programming Interface` both in the index, the input
`The Application Programming Interface is great` yields exactly one annotation
node spanning the full multi-word phrase. -/
theorem c1_greedy_overlap_resolution :
    (∀ ms : List Match, (sortByIndex ms).Pairwise (fun a b => a.index ≤ b.index))
    ∧ (∀ ms : List Match, removeOverlapsGo (sortByIndex ms) 0 = specResolve (sortByIndex ms))
    ∧ replaceTermsInText
        (buildSortedTerms [⟨ "API".data, "short".data⟩,
          ⟨ "Application Programming Interface".data, "long".data⟩])
        ("/glossary".data) ("The Application Programming Interface is great".data)
      = [Node.text ("The ".data),
         annotNode ("/glossary".data)
           { index := 4, length := 33, term := "Application Programming Interface".data,
             definition := "long".data,
             originalText := "Application Programming Interface".data },
         Node.text (" is great".data)] := by
  refine ⟨pairwise_sortByIndex, ?_, rfl⟩
  intro ms
  rw [specResolve, specResolveGo_eq (sortByIndex ms) []]
  simp [keptEnd]

/-- Claim C5: a text node whose immediate parent is a protected container
(code, inline code, link, or an MDX JSX annotation element) is never scanned:
the traversal leaves it unchanged and emits no annotation for it, whatever
its text; concretely a tree whose terms appear only inside `code` and `link`
containers passes through the transformer untouched. -/
theorem c5_protected_contexts :
    (∀ (st : List (Str × TermObj)) (route ty : Str), protectedTy ty = true →
      ∀ (v : Str) (rest : List Node),
        visitChildren st route ty (Node.text v :: rest)
          = (Node.text v :: (visitChildren st route ty rest).1,
             (visitChildren st route ty rest).2))
    ∧ transformer (buildSortedTerms [⟨ "API".data, "an interface".data⟩]) ("/glossary".data)
        (Node.elem ("root".data) [] []
          [Node.elem ("code".data) [] [] [Node.text ("the API is great".data)],
           Node.elem ("link".data) [] [] [Node.text ("API docs".data)]])
      = Node.elem ("root".data) [] []
          [Node.elem ("code".data) [] [] [Node.text ("the API is great".data)],
           Node.elem ("link".data) [] [] [Node.text ("API docs".data)]] := by
  refine ⟨?_, rfl⟩
  intro st route ty h v rest
  simp [visitChildren, h]

/-- Claim C9: the per-node rewrite loses no characters — concatenating, in
order, every plain-text fragment and the text child of every annotation node
of the replacement sequence reproduces the scanned text exactly. -/
theorem c9_text_preservation :
    ∀ (st : List (Str × TermObj)) (route text : Str),
      seqText (replaceTermsInText st route text) = text := by
  intro st route text
  simp only [replaceTermsInText]
  by_cases hg : (text.isEmpty || st.isEmpty) = true
  · rw [if_pos hg]
    simp [seqText, nodeText]
  · rw [if_neg hg]
    by_cases hr : (buildResult text route (removeOverlapsGo (sortByIndex (collectMatches st text)) 0) 0).isEmpty = true
    · rw [if_pos hr]
      simp [seqText, nodeText]
    · rw [if_neg hr]
      have hmem : ∀ m ∈ sortByIndex (collectMatches st text),
          m.originalText = substringL text m.index (m.index + m.length) :=
        fun m hm => collectMatches_originalText st text m (mem_sortByIndex m _ hm)
      have hmain := removeOverlaps_buildResult_text text route (sortByIndex (collectMatches st text)) 0 hmem
      rw [List.drop_zero] at hmain
      exact hmain

/-- Claim C6, counterexample: on a tree containing none of the glossary terms,
calling the transformer twice yields a tree with ZERO injected declaration
nodes, not exactly one — the universally quantified claim fails for trees in
which no annotation is ever emitted. -/
theorem c6_exactly_one_import_counterexample :
    countTopImports
        (remarkGlossaryTerms [⟨ "webhook".data, "a callback".data⟩] ("/glossary".data)
          (remarkGlossaryTerms [⟨ "webhook".data, "a callback".data⟩] ("/glossary".data)
            (Node.elem ("root".data) [] []
              [Node.elem ("paragraph".data) [] [] [Node.text ("hello there".data)]]))) = 0
    ∧ countTopImports
        (remarkGlossaryTerms [⟨ "webhook".data, "a callback".data⟩] ("/glossary".data)
          (remarkGlossaryTerms [⟨ "webhook".data, "a callback".data⟩] ("/glossary".data)
            (Node.elem ("root".data) [] []
              [Node.elem ("paragraph".data) [] [] [Node.text ("hello there".data)]]))) ≠ 1 :=
  ⟨rfl, by decide⟩

/-- Claim C6 as amended: for every container-rooted tree whose top-level
children hold no declaration for the annotation component yet, if the scan
emits at least one annotation then transforming twice leaves exactly one
injected declaration: the first call inserts it, and the second call's
check of the top-level children finds it and skips insertion. -/
theorem c6_import_injection_idempotent (st : List (Str × TermObj)) (route ty name : Str)
    (attrs : List (Str × Str)) (cs : List Node)
    (h0 : cs.countP isGlossaryImport = 0)
    (hused : (visitChildren st route ty cs).2 = true) :
    countTopImports
      (transformer st route (transformer st route (Node.elem ty name attrs cs))) = 1 := by
  have hc1 : ((visitChildren st route ty cs).1).countP isGlossaryImport = 0 := by
    rw [visitChildren_countP]
    exact h0
  have himp1 : hasImport (visitChildren st route ty cs).1 = false :=
    hasImport_false_of_countP _ hc1
  have ht1 : transformer st route (Node.elem ty name attrs cs)
      = Node.elem ty name attrs (insertImportAt (visitChildren st route ty cs).1) := by
    simp only [transformer]
    rw [if_pos (by rw [hused, himp1]; rfl)]
  rw [ht1]
  have hc2 : (insertImportAt (visitChildren st route ty cs).1).countP isGlossaryImport = 1 := by
    rw [countP_insertImportAt, hc1]
  have himp2 : hasImport
      (visitChildren st route ty (insertImportAt (visitChildren st route ty cs).1)).1 = true := by
    apply hasImport_true_of_countP
    rw [visitChildren_countP]
    omega
  simp only [transformer]
  rw [if_neg (by rw [himp2]; simp)]
  simp only [countTopImports]
  rw [visitChildren_countP]
  exact hc2

/-- Witness for the amended C6: a one-paragraph tree containing `webhooks`
satisfies both hypotheses, and two transforms leave exactly one declaration. -/
theorem c6_import_injection_idempotent_witness :
    ([Node.elem ("paragraph".data) [] [] [Node.text ("use webhooks now".data)]] : List Node).countP
        isGlossaryImport = 0
    ∧ (visitChildren (buildSortedTerms [⟨ "webhook".data, "a callback".data⟩]) ("/glossary".data)
        ("root".data)
        [Node.elem ("paragraph".data) [] [] [Node.text ("use webhooks now".data)]]).2 = true
    ∧ countTopImports
        (transformer (buildSortedTerms [⟨ "webhook".data, "a callback".data⟩]) ("/glossary".data)
          (transformer (buildSortedTerms [⟨ "webhook".data, "a callback".data⟩]) ("/glossary".data)
            (Node.elem ("root".data) [] []
              [Node.elem ("paragraph".data) [] [] [Node.text ("use webhooks now".data)]]))) = 1 :=
  ⟨rfl, by decide,
    c6_import_injection_idempotent
      (buildSortedTerms [⟨ "webhook".data, "a callback".data⟩]) ("/glossary".data)
      ("root".data) [] [] [Node.elem ("paragraph".data) [] [] [Node.text ("use webhooks now".data)]]
      (by decide) (by decide)⟩
